import Mathlib

/-!
Verification of `src/token/stream-parser.ts`: the incremental token-stream
decoder (class `Parser`).  Bytes are modelled as `Nat` (each < 256 in real
inputs), buffers as `List Nat`, and JS numbers as `Nat`/`Int` (the arithmetic
performed by the decoders in the claims' range is exact in IEEE doubles, so
exact integer arithmetic is a faithful model there).

The external token decoders (`colmetadata-token-parser` and friends) are
required by the source but are not part of this repository's files; per the
spec they are routines built from the parser's read primitives that finish by
calling `done` exactly once.  They are modelled from the spec as arbitrary
programs in a small language `Prog` whose only effects are "read N bytes at
the cursor" (the composition of `awaitData`, a buffer read and the cursor
advance) and "complete with a token".
-/

namespace Tedious

/-- Column-metadata context (`Parser.colMetadata`).  The descriptor payloads
are produced by the external `colmetadata-token-parser`, which is not in the
repository's files, so one descriptor is abstracted to a `Nat`. -/
abbrev ColMetadata := List Nat

/-- Protocol tokens (the `Token` union type of the source, lines 29-54).
Only the structure the engine itself inspects is kept: `parseTokens`'
completion callback switches on `name = COLMETADATA` and reads `columns`,
and `_transform` fabricates the `EOM` pseudo token; every other variant is
opaque to the engine and collapsed into `plain` (tag and payload). -/
inductive Token where
  | colMetadata (columns : List Nat) : Token
  | eom : Token
  | plain (tag : Nat) (payload : List Int) : Token
deriving DecidableEq

/-- Observable output of the parser: a pushed token (`this.push(token)` /
`done(null, token)`) or the out-of-band fatal signal
(`this.emit('error', new Error('Unknown type: ' + type))`), recorded with
the offending tag byte. -/
inductive Event where
  | token (t : Token) : Event
  | error (tag : Nat) : Event
deriving DecidableEq

/-- Modelled from the spec: an external token decoder is a CPS routine over
the parser's read primitives.  `readBytes n k` is "await `n` bytes at the
cursor, consume them, continue with them" (`awaitData` + buffer read +
`this.position += n`); `done` is the single completion-callback call. -/
inductive Prog (α : Type) where
  | done (value : α) : Prog α
  | readBytes (need : Nat) (k : List Nat → Prog α) : Prog α

/-- Result of driving a decoder program against the current window: it either
completes with a value and the advanced cursor, or suspends.  On suspension
the stored continuation is `() => this.awaitData(length, callback)` — i.e.
the same failing read, retried — and the cursor stays where the failing read
began (partial fields already read live in the program's closures). -/
inductive RunResult (α : Type) where
  | completed (value : α) (pos : Nat) : RunResult α
  | suspended (pending : Prog α) (pos : Nat) : RunResult α

/-- Drive a decoder program on window `buf` from cursor `pos`.  The
`pos + need ≤ buf.length` test is `awaitData`'s guard (line 144); the `else`
branch is `suspend(() => awaitData(length, callback))` (lines 146-150). -/
def runProg {α : Type} : Prog α → List Nat → Nat → RunResult α
  | .done v, _, pos => .completed v pos
  | .readBytes need k, buf, pos =>
      if pos + need ≤ buf.length then
        runProg (k ((buf.drop pos).take need)) buf (pos + need)
      else
        .suspended (.readBytes need k) pos

/-- Token decoder registry (`tokenParsers`, lines 7-25): a partial map from
the one-byte tag to a decoder.  A registered decoder receives the current
column-metadata context (the `options` argument is fixed per instance and
absorbed here).  The registered decoders themselves are external modules. -/
abbrev Registry := Nat → Option (ColMetadata → Prog Token)

/-- Buffer byte read `buffer.readUInt8(i)` (out-of-range reads never happen
under `awaitData`'s guard; they default to 0). -/
def bufReadUInt8 (buf : List Nat) (i : Nat) : Nat :=
  buf.getD i 0

/-- Buffer read `buffer.readUInt16LE(i)`. -/
def bufReadUInt16LE (buf : List Nat) (i : Nat) : Nat :=
  bufReadUInt8 buf i + 256 * bufReadUInt8 buf (i + 1)

/-- Buffer read `buffer.readUInt32LE(i)`. -/
def bufReadUInt32LE (buf : List Nat) (i : Nat) : Nat :=
  bufReadUInt8 buf i + 256 * bufReadUInt8 buf (i + 1)
    + 65536 * bufReadUInt8 buf (i + 2) + 16777216 * bufReadUInt8 buf (i + 3)

/-- Buffer read `buffer.readInt32LE(i)`: the unsigned little-endian word
reinterpreted as two's-complement. -/
def bufReadInt32LE (buf : List Nat) (i : Nat) : Int :=
  let u := bufReadUInt32LE buf i
  if u < 2147483648 then (u : Int) else (u : Int) - 4294967296

/-- Reader `readUInt8` (lines 161-167). -/
def readUInt8 {α : Type} (callback : Nat → Prog α) : Prog α :=
  .readBytes 1 fun bs => callback (bufReadUInt8 bs 0)

/-- Reader `readUInt16LE` (lines 185-191). -/
def readUInt16LE {α : Type} (callback : Nat → Prog α) : Prog α :=
  .readBytes 2 fun bs => callback (bufReadUInt16LE bs 0)

/-- Reader `readUInt32LE` (lines 217-223). -/
def readUInt32LE {α : Type} (callback : Nat → Prog α) : Prog α :=
  .readBytes 4 fun bs => callback (bufReadUInt32LE bs 0)

/-- Reader `readInt64LE` (lines 233-239), verbatim:
`Math.pow(2, 32) * buffer.readInt32LE(position + 4) +
 ((buffer[position + 4] & 0x80) === 0x80 ? 1 : -1) * buffer.readUInt32LE(position)`.
Note the sign factor multiplies the low word and is taken from bit 7 of the
byte at offset 4, the least-significant byte of the high word. -/
def readInt64LE {α : Type} (callback : Int → Prog α) : Prog α :=
  .readBytes 8 fun bs =>
    callback (4294967296 * bufReadInt32LE bs 4
      + (if Nat.land (bufReadUInt8 bs 4) 128 = 128 then 1 else -1)
        * (bufReadUInt32LE bs 0 : Int))

/-- Reader `readUInt64LE` (lines 249-255):
`Math.pow(2, 32) * buffer.readUInt32LE(position + 4) + buffer.readUInt32LE(position)`. -/
def readUInt64LE {α : Type} (callback : Nat → Prog α) : Prog α :=
  .readBytes 8 fun bs =>
    callback (4294967296 * bufReadUInt32LE bs 4 + bufReadUInt32LE bs 0)

/-- Reader `readUInt24LE` (lines 297-306): `low | (high << 16)` with a 16-bit
low part and an 8-bit high part (both operands are < 2^31, so JS's 32-bit
bitwise or is the plain bitwise or on naturals). -/
def readUInt24LE {α : Type} (callback : Nat → Prog α) : Prog α :=
  .readBytes 3 fun bs =>
    callback (Nat.lor (bufReadUInt16LE bs 0) (Nat.shiftLeft (bufReadUInt8 bs 2) 16))

/-- Reader `readUInt40LE` (lines 308-317): `(0x100000000 * high) + low`. -/
def readUInt40LE {α : Type} (callback : Nat → Prog α) : Prog α :=
  .readBytes 5 fun bs =>
    callback (4294967296 * bufReadUInt8 bs 4 + bufReadUInt32LE bs 0)

/-- Reader `readUNumeric64LE` (lines 319-328): `(0x100000000 * high) + low`. -/
def readUNumeric64LE {α : Type} (callback : Nat → Prog α) : Prog α :=
  .readBytes 8 fun bs =>
    callback (4294967296 * bufReadUInt32LE bs 4 + bufReadUInt32LE bs 0)

/-- Reader `readUNumeric96LE` (lines 330-340):
`dword1 + (0x100000000 * dword2) + (0x100000000 * 0x100000000 * dword3)`. -/
def readUNumeric96LE {α : Type} (callback : Nat → Prog α) : Prog α :=
  .readBytes 12 fun bs =>
    callback (bufReadUInt32LE bs 0 + 4294967296 * bufReadUInt32LE bs 4
      + (4294967296 * 4294967296) * bufReadUInt32LE bs 8)

/-- Reader `readUNumeric128LE` (lines 342-353). -/
def readUNumeric128LE {α : Type} (callback : Nat → Prog α) : Prog α :=
  .readBytes 16 fun bs =>
    callback (bufReadUInt32LE bs 0 + 4294967296 * bufReadUInt32LE bs 4
      + (4294967296 * 4294967296) * bufReadUInt32LE bs 8
      + (4294967296 * 4294967296 * 4294967296) * bufReadUInt32LE bs 12)

/-- Reader `readBuffer` (lines 357-363): await `length` raw bytes and hand
them over. -/
def readBuffer {α : Type} (length : Nat) (callback : List Nat → Prog α) : Prog α :=
  .readBytes length callback

/-- UCS-2 decoding of a byte list, used by `data.toString('ucs2')`: each
2-byte little-endian code unit becomes one character. -/
def ucs2Chars : List Nat → List Char
  | b0 :: b1 :: rest => Char.ofNat (b0 + 256 * b1) :: ucs2Chars rest
  | _ => []

/-- Byte list to string, `data.toString('ucs2')`. -/
def ucs2ToString (bs : List Nat) : String :=
  String.mk (ucs2Chars bs)

/-- Reader `readBVarChar` (lines 366-372): a 1-byte character count, then
`2 * length` bytes decoded as UCS-2 text. -/
def readBVarChar {α : Type} (callback : String → Prog α) : Prog α :=
  readUInt8 fun length =>
    readBuffer (length * 2) fun bs => callback (ucs2ToString bs)

/-- Reader `readUsVarChar` (lines 375-381): a 2-byte little-endian character
count, then `2 * length` bytes decoded as UCS-2 text. -/
def readUsVarChar {α : Type} (callback : String → Prog α) : Prog α :=
  readUInt16LE fun length =>
    readBuffer (length * 2) fun bs => callback (ucs2ToString bs)

/-- Completion-callback context update (`doneParsing`, lines 114-123): a
completed COLMETADATA token replaces the column-metadata context with its
`columns` payload; every other token leaves it unchanged. -/
def updateColMetadata (meta : ColMetadata) (t : Token) : ColMetadata :=
  match t with
  | .colMetadata columns => columns
  | _ => meta

/-- How a run of the dispatch loop ended: the window was exhausted, or a
nested read suspended with its pending retry program. -/
inductive DispatchOutcome where
  | finished : DispatchOutcome
  | suspendedOn (pending : Prog Token) : DispatchOutcome

/-- Result of running the dispatch loop (or a resumed decoder): the events
emitted in order, the final cursor, the final column-metadata context, and
how the run ended. -/
structure LoopResult where
  events : List Event
  pos : Nat
  meta : ColMetadata
  outcome : DispatchOutcome

end Tedious

namespace Tedious

/-- Helper for the dispatch loop's termination: a decoder program never moves
the cursor backwards. -/
theorem runProg_completed_le {α : Type} (p : Prog α) :
    ∀ (buf : List Nat) (pos : Nat) (v : α) (q : Nat),
      runProg p buf pos = .completed v q → pos ≤ q := by
  induction p with
  | done v =>
      intro buf pos w q h
      simp only [runProg] at h
      cases h
      exact Nat.le_refl _
  | readBytes need k ih =>
      intro buf pos w q h
      rw [runProg] at h
      split at h
      · exact Nat.le_trans (Nat.le_add_right pos need) (ih _ buf (pos + need) w q h)
      · cases h

/-- Dispatch loop `parseTokens` (lines 113-136): while at least one unread
byte remains, read the tag byte, advance the cursor and dispatch.  A missing
registry entry emits the out-of-band error signal and the loop re-enters; a
completed decode fires `doneParsing` (context update, then push) and the loop
re-enters; a suspension ends the run. -/
def parseTokens (reg : Registry) (buf : List Nat) (pos : Nat) (meta : ColMetadata) :
    LoopResult :=
  if h : pos + 1 ≤ buf.length then
    match reg (bufReadUInt8 buf pos) with
    | none =>
        let r := parseTokens reg buf (pos + 1) meta
        { r with events := .error (bufReadUInt8 buf pos) :: r.events }
    | some dec =>
        match hrun : runProg (dec meta) buf (pos + 1) with
        | .completed t q =>
            let r := parseTokens reg buf q (updateColMetadata meta t)
            { r with events := .token t :: r.events }
        | .suspended p sp =>
            { events := [], pos := sp, meta := meta, outcome := .suspendedOn p }
  else
    { events := [], pos := pos, meta := meta, outcome := .finished }
termination_by buf.length - pos
decreasing_by
  · omega
  · have := runProg_completed_le _ _ _ _ _ hrun
    omega

/-- Resumption followed by the dispatch loop: what `_transform` does when a
pending continuation exists (lines 98-108).  `this.next!()` retries the
failed read; if it completes, the completion callback fires (`doneParsing`:
context update and push) and, the parser no longer being suspended,
`parseTokens()` continues from the advanced cursor; if it suspends again the
loop is skipped. -/
def resumeLoop (reg : Registry) (p : Prog Token) (buf : List Nat) (pos : Nat)
    (meta : ColMetadata) : LoopResult :=
  match runProg p buf pos with
  | .completed t q =>
      let r := parseTokens reg buf q (updateColMetadata meta t)
      { r with events := .token t :: r.events }
  | .suspended p1 sp =>
      { events := [], pos := sp, meta := meta, outcome := .suspendedOn p1 }

/-- Mutable state of one `Parser` instance (constructor, lines 67-79): byte
window, cursor, column-metadata context, suspension flag and stored
continuation.  (`debug`, `options` and the `endOfMessageMarker` singleton
carry no parsing state.) -/
structure PState where
  buffer : List Nat
  position : Nat
  colMetadata : ColMetadata
  suspended : Bool
  next : Option (Prog Token)

/-- State built by the constructor: empty window, cursor 0, not suspended,
no stored continuation. -/
def initState (meta : ColMetadata) : PState :=
  { buffer := [], position := 0, colMetadata := meta, suspended := false, next := none }

/-- Chunk input (`_transform`'s `input`): raw bytes, or the distinguished
`EndOfMessageMarker`. -/
inductive Chunk where
  | bytes (data : List Nat) : Chunk
  | endOfMessage : Chunk

/-- Accumulator append (lines 91-96): if the cursor has consumed the whole
window the new chunk replaces it outright, otherwise the unconsumed suffix is
concatenated with the chunk; the cursor resets to 0. -/
def appendChunk (s : PState) (input : List Nat) : PState :=
  { s with
    buffer :=
      if s.position = s.buffer.length then input
      else s.buffer.drop s.position ++ input,
    position := 0 }

/-- Pack a loop result back into the instance state: the field assignments
performed by `suspend` (lines 138-141) on suspension, and the loop's final
cursor otherwise.  `next` is only overwritten by a new suspension - the
source never clears it on resume. -/
def applyResult (s : PState) (buf : List Nat) (r : LoopResult) : PState :=
  { buffer := buf, position := r.pos, colMetadata := r.meta,
    suspended := match r.outcome with | .finished => false | .suspendedOn _ => true,
    next := match r.outcome with | .finished => s.next | .suspendedOn p => some p }

/-- Continuation that `_transform` will actually resume: the stored `next`
when the suspended flag is set.  (A set flag with no stored continuation
cannot arise from `initState`: `suspend` always stores one.) -/
def pendingOf (s : PState) : Option (Prog Token) :=
  if s.suspended then s.next else none

/-- Transform step `_transform` (lines 81-111).  An end-of-message marker
immediately emits the EOM pseudo token (`done(null, {name: 'EOM', ...})`) and
touches no state.  Raw bytes are appended to the window with the cursor reset
to 0; a pending continuation is resumed first; if the parser is then no
longer suspended, the dispatch loop runs. -/
def feed (reg : Registry) (s : PState) (c : Chunk) : PState × List Event :=
  match c with
  | .endOfMessage => (s, [Event.token Token.eom])
  | .bytes input =>
      let w := (appendChunk s input).buffer
      match pendingOf s with
      | some p =>
          let r := resumeLoop reg p w 0 s.colMetadata
          (applyResult s w r, r.events)
      | none =>
          let r := parseTokens reg w 0 s.colMetadata
          (applyResult s w r, r.events)

/-- Feed a sequence of chunks in delivery order, concatenating the emitted
events. -/
def feedMany (reg : Registry) (s : PState) : List Chunk → PState × List Event
  | [] => (s, [])
  | c :: cs =>
      let r1 := feed reg s c
      let r2 := feedMany reg r1.1 cs
      (r2.1, r1.2 ++ r2.2)

/-- Tokens among a list of emitted events, in order. -/
def eventTokens (evs : List Event) : List Token :=
  evs.filterMap fun e => match e with | .token t => some t | .error _ => none

/-- Modelled from the spec: little-endian encoding of a value into `width`
bytes - the wire format the extended-width unsigned readers decode (the
writer side is not part of this repository's files). -/
def encodeLE : Nat → Nat → List Nat
  | 0, _ => []
  | width + 1, v => v % 256 :: encodeLE width (v / 256)

/-- Modelled from the spec: UCS-2 encoding of a list of code units, two
little-endian bytes per unit (the writer side is not part of this
repository's files). -/
def ucs2Encode : List Nat → List Nat
  | [] => []
  | u :: us => u % 256 :: u / 256 :: ucs2Encode us

/-- Registry with no decoders registered, for concrete dispatch runs. -/
def regEmpty : Registry := fun _ => none

/-- Registry registering only tag 7, with a decoder that completes
immediately with a payload-free token, for concrete dispatch runs. -/
def regPlain7 : Registry :=
  fun tag => if tag = 7 then some (fun _ => .done (.plain 7 [])) else none

/-- Registry registering only tag 129, with a decoder that reads two bytes
and completes with a COLMETADATA token carrying them, for concrete dispatch
runs. -/
def regColMeta : Registry :=
  fun tag =>
    if tag = 129 then some (fun _ => .readBytes 2 fun bs => .done (.colMetadata bs))
    else none

end Tedious

namespace Tedious

/-- Sequencing of two loop runs: the events of both in order, the final state
of the second. -/
def seqResult (r1 r2 : LoopResult) : LoopResult :=
  { events := r1.events ++ r2.events, pos := r2.pos, meta := r2.meta, outcome := r2.outcome }

/-- What the next `_transform` does with the state a run left behind, on a
given window: continue the dispatch loop after a finished run, resume the
pending read after a suspension. -/
def continueRun (reg : Registry) (out : DispatchOutcome) (pos : Nat)
    (meta : ColMetadata) (buf : List Nat) : LoopResult :=
  match out with
  | .finished => parseTokens reg buf pos meta
  | .suspendedOn p => resumeLoop reg p buf pos meta

/-- Re-expression of a loop result after the window is compacted by `d`
consumed bytes: same events, context and outcome, cursor shifted. -/
def shiftLoop (d : Nat) (r : LoopResult) : LoopResult :=
  { r with pos := r.pos - d }

theorem getD_append_lt {l1 l2 : List Nat} {n : Nat} (h : n < l1.length) (d : Nat) :
    (l1 ++ l2).getD n d = l1.getD n d := by
  simp [List.getD_eq_getElem?_getD, List.getElem?_append_left h]

theorem getD_drop_add (l : List Nat) (m n d : Nat) :
    (l.drop m).getD n d = l.getD (m + n) d := by
  simp [List.getD_eq_getElem?_getD, List.getElem?_drop]

theorem window_slice_extend (buf ext : List Nat) (pos need : Nat)
    (h : pos + need ≤ buf.length) :
    ((buf ++ ext).drop pos).take need = (buf.drop pos).take need := by
  rw [List.drop_append_of_le_length (by omega)]
  rw [List.take_append_of_le_length (by simp [List.length_drop]; omega)]

theorem window_slice_shift (buf : List Nat) (d pos : Nat) (hd : d ≤ pos) :
    (buf.drop d).drop (pos - d) = buf.drop pos := by
  rw [List.drop_drop]
  congr 1
  omega

theorem runProg_completed_bound {α : Type} (p : Prog α) :
    ∀ (buf : List Nat) (pos : Nat) (v : α) (q : Nat),
      pos ≤ buf.length → runProg p buf pos = .completed v q → q ≤ buf.length := by
  induction p with
  | done v =>
      intro buf pos w q hb h
      simp only [runProg] at h
      cases h
      exact hb
  | readBytes need k ih =>
      intro buf pos w q hb h
      rw [runProg] at h
      split at h
      case isTrue hc => exact ih _ buf (pos + need) w q hc h
      case isFalse hc => cases h

theorem runProg_suspended_bound {α : Type} (p : Prog α) :
    ∀ (buf : List Nat) (pos : Nat) (p1 : Prog α) (sp : Nat),
      pos ≤ buf.length → runProg p buf pos = .suspended p1 sp →
      pos ≤ sp ∧ sp ≤ buf.length := by
  induction p with
  | done v =>
      intro buf pos p1 sp hb h
      simp [runProg] at h
  | readBytes need k ih =>
      intro buf pos p1 sp hb h
      rw [runProg] at h
      split at h
      case isTrue hc =>
        have := ih _ buf (pos + need) p1 sp hc h
        omega
      case isFalse hc =>
        cases h
        exact ⟨Nat.le_refl _, hb⟩

theorem runProg_extend_completed {α : Type} (p : Prog α) :
    ∀ (buf ext : List Nat) (pos : Nat) (v : α) (q : Nat),
      runProg p buf pos = .completed v q →
      runProg p (buf ++ ext) pos = .completed v q := by
  induction p with
  | done v =>
      intro buf ext pos w q h
      simp only [runProg] at h ⊢
      exact h
  | readBytes need k ih =>
      intro buf ext pos w q h
      rw [runProg] at h
      split at h
      case isTrue hc =>
        rw [runProg, if_pos (by simp [List.length_append]; omega)]
        rw [window_slice_extend buf ext pos need hc]
        exact ih _ buf ext (pos + need) w q h
      case isFalse hc => cases h

theorem runProg_extend_suspended {α : Type} (p : Prog α) :
    ∀ (buf ext : List Nat) (pos : Nat) (p1 : Prog α) (sp : Nat),
      runProg p buf pos = .suspended p1 sp →
      runProg p (buf ++ ext) pos = runProg p1 (buf ++ ext) sp := by
  induction p with
  | done v =>
      intro buf ext pos p1 sp h
      simp [runProg] at h
  | readBytes need k ih =>
      intro buf ext pos p1 sp h
      rw [runProg] at h
      split at h
      case isTrue hc =>
        rw [runProg, if_pos (by simp [List.length_append]; omega)]
        rw [window_slice_extend buf ext pos need hc]
        exact ih _ buf ext (pos + need) p1 sp h
      case isFalse hc =>
        cases h
        rfl

theorem runProg_shift_completed {α : Type} (p : Prog α) :
    ∀ (buf : List Nat) (pos d : Nat) (v : α) (q : Nat),
      d ≤ pos → pos ≤ buf.length → runProg p buf pos = .completed v q →
      runProg p (buf.drop d) (pos - d) = .completed v (q - d) := by
  induction p with
  | done v =>
      intro buf pos d w q hd hb h
      simp only [runProg] at h ⊢
      cases h
      rfl
  | readBytes need k ih =>
      intro buf pos d w q hd hb h
      rw [runProg] at h
      split at h
      case isTrue hc =>
        rw [runProg, if_pos (by simp [List.length_drop]; omega)]
        rw [window_slice_shift buf d pos hd]
        have h2 := ih _ buf (pos + need) d w q (by omega) (by omega) h
        have he : pos - d + need = pos + need - d := by omega
        rw [he]
        exact h2
      case isFalse hc => cases h

theorem runProg_shift_suspended {α : Type} (p : Prog α) :
    ∀ (buf : List Nat) (pos d : Nat) (p1 : Prog α) (sp : Nat),
      d ≤ pos → pos ≤ buf.length → runProg p buf pos = .suspended p1 sp →
      runProg p (buf.drop d) (pos - d) = .suspended p1 (sp - d) := by
  induction p with
  | done v =>
      intro buf pos d p1 sp hd hb h
      simp [runProg] at h
  | readBytes need k ih =>
      intro buf pos d p1 sp hd hb h
      rw [runProg] at h
      split at h
      case isTrue hc =>
        rw [runProg, if_pos (by simp [List.length_drop]; omega)]
        rw [window_slice_shift buf d pos hd]
        have h2 := ih _ buf (pos + need) d p1 sp (by omega) (by omega) h
        have he : pos - d + need = pos + need - d := by omega
        rw [he]
        exact h2
      case isFalse hc =>
        cases h
        rw [runProg, if_neg (by simp [List.length_drop]; omega)]

end Tedious

namespace Tedious

theorem parseTokens_stop (reg : Registry) (buf : List Nat) (pos : Nat) (meta : ColMetadata)
    (h : ¬ pos + 1 ≤ buf.length) :
    parseTokens reg buf pos meta =
      { events := [], pos := pos, meta := meta, outcome := .finished } := by
  rw [parseTokens]
  simp [h]

theorem parseTokens_unknown (reg : Registry) (buf : List Nat) (pos : Nat) (meta : ColMetadata)
    (h : pos + 1 ≤ buf.length) (hr : reg (bufReadUInt8 buf pos) = none) :
    parseTokens reg buf pos meta =
      { parseTokens reg buf (pos + 1) meta with
        events := .error (bufReadUInt8 buf pos) :: (parseTokens reg buf (pos + 1) meta).events } := by
  rw [parseTokens]
  simp [h, hr]

theorem parseTokens_completed_step (reg : Registry) (buf : List Nat) (pos : Nat)
    (meta : ColMetadata) (dec : ColMetadata → Prog Token) (t : Token) (q : Nat)
    (h : pos + 1 ≤ buf.length) (hr : reg (bufReadUInt8 buf pos) = some dec)
    (hp : runProg (dec meta) buf (pos + 1) = .completed t q) :
    parseTokens reg buf pos meta =
      { parseTokens reg buf q (updateColMetadata meta t) with
        events := .token t :: (parseTokens reg buf q (updateColMetadata meta t)).events } := by
  rw [parseTokens, dif_pos h]
  split
  · next hnone =>
      rw [hr] at hnone
      cases hnone
  · next dec2 hsome =>
      rw [hr] at hsome
      cases hsome
      split
      · next t2 q2 heq =>
          rw [hp] at heq
          cases heq
          rfl
      · next p2 sp2 heq =>
          rw [hp] at heq
          cases heq

theorem parseTokens_suspended_step (reg : Registry) (buf : List Nat) (pos : Nat)
    (meta : ColMetadata) (dec : ColMetadata → Prog Token) (p1 : Prog Token) (sp : Nat)
    (h : pos + 1 ≤ buf.length) (hr : reg (bufReadUInt8 buf pos) = some dec)
    (hp : runProg (dec meta) buf (pos + 1) = .suspended p1 sp) :
    parseTokens reg buf pos meta =
      { events := [], pos := sp, meta := meta, outcome := .suspendedOn p1 } := by
  rw [parseTokens, dif_pos h]
  split
  · next hnone =>
      rw [hr] at hnone
      cases hnone
  · next dec2 hsome =>
      rw [hr] at hsome
      cases hsome
      split
      · next t2 q2 heq =>
          rw [hp] at heq
          cases heq
      · next p2 sp2 heq =>
          rw [hp] at heq
          cases heq
          rfl

theorem resumeLoop_completed (reg : Registry) (p : Prog Token) (buf : List Nat) (pos : Nat)
    (meta : ColMetadata) (t : Token) (q : Nat) (hp : runProg p buf pos = .completed t q) :
    resumeLoop reg p buf pos meta =
      { parseTokens reg buf q (updateColMetadata meta t) with
        events := .token t :: (parseTokens reg buf q (updateColMetadata meta t)).events } := by
  unfold resumeLoop
  rw [hp]

theorem resumeLoop_suspended (reg : Registry) (p : Prog Token) (buf : List Nat) (pos : Nat)
    (meta : ColMetadata) (p1 : Prog Token) (sp : Nat)
    (hp : runProg p buf pos = .suspended p1 sp) :
    resumeLoop reg p buf pos meta =
      { events := [], pos := sp, meta := meta, outcome := .suspendedOn p1 } := by
  unfold resumeLoop
  rw [hp]

theorem parseTokens_pos_bound (reg : Registry) (buf : List Nat) :
    ∀ (pos : Nat) (meta : ColMetadata), pos ≤ buf.length →
      (parseTokens reg buf pos meta).pos ≤ buf.length := by
  have H : ∀ (n pos : Nat) (meta : ColMetadata), buf.length - pos ≤ n →
      pos ≤ buf.length → (parseTokens reg buf pos meta).pos ≤ buf.length := by
    intro n
    induction n with
    | zero =>
        intro pos meta hn hb
        rw [parseTokens_stop reg buf pos meta (by omega)]
        exact hb
    | succ n ih =>
        intro pos meta hn hb
        by_cases h : pos + 1 ≤ buf.length
        · cases hr : reg (bufReadUInt8 buf pos) with
          | none =>
              rw [parseTokens_unknown reg buf pos meta h hr]
              simpa using ih (pos + 1) meta (by omega) (by omega)
          | some dec =>
              cases hq : runProg (dec meta) buf (pos + 1) with
              | completed t q =>
                  rw [parseTokens_completed_step reg buf pos meta dec t q h hr hq]
                  have hq1 := runProg_completed_le _ buf (pos + 1) t q hq
                  have hq2 := runProg_completed_bound _ buf (pos + 1) t q h hq
                  simpa using ih q (updateColMetadata meta t) (by omega) hq2
              | suspended p sp =>
                  rw [parseTokens_suspended_step reg buf pos meta dec p sp h hr hq]
                  simpa using (runProg_suspended_bound _ buf (pos + 1) p sp h hq).2
        · rw [parseTokens_stop reg buf pos meta h]
          exact hb
  intro pos meta hb
  exact H (buf.length - pos) pos meta (Nat.le_refl _) hb

theorem resumeLoop_pos_bound (reg : Registry) (p : Prog Token) (buf : List Nat)
    (pos : Nat) (meta : ColMetadata) (hb : pos ≤ buf.length) :
    (resumeLoop reg p buf pos meta).pos ≤ buf.length := by
  cases hq : runProg p buf pos with
  | completed t q =>
      rw [resumeLoop_completed reg p buf pos meta t q hq]
      simpa using parseTokens_pos_bound reg buf q (updateColMetadata meta t)
        (runProg_completed_bound _ buf pos t q hb hq)
  | suspended p1 sp =>
      rw [resumeLoop_suspended reg p buf pos meta p1 sp hq]
      simpa using (runProg_suspended_bound _ buf pos p1 sp hb hq).2

end Tedious


namespace Tedious

theorem parseTokens_extend (reg : Registry) (buf ext : List Nat) :
    ∀ (pos : Nat) (meta : ColMetadata),
      parseTokens reg (buf ++ ext) pos meta =
        seqResult (parseTokens reg buf pos meta)
          (continueRun reg (parseTokens reg buf pos meta).outcome
            (parseTokens reg buf pos meta).pos
            (parseTokens reg buf pos meta).meta (buf ++ ext)) := by
  have H : ∀ (n pos : Nat) (meta : ColMetadata), buf.length - pos ≤ n →
      parseTokens reg (buf ++ ext) pos meta =
        seqResult (parseTokens reg buf pos meta)
          (continueRun reg (parseTokens reg buf pos meta).outcome
            (parseTokens reg buf pos meta).pos
            (parseTokens reg buf pos meta).meta (buf ++ ext)) := by
    intro n
    induction n with
    | zero =>
        intro pos meta hn
        rw [parseTokens_stop reg buf pos meta (by omega)]
        simp [seqResult, continueRun]
    | succ n ih =>
        intro pos meta hn
        by_cases h : pos + 1 ≤ buf.length
        case neg =>
            rw [parseTokens_stop reg buf pos meta h]
            simp [seqResult, continueRun]
        case pos =>
          have htag : bufReadUInt8 (buf ++ ext) pos = bufReadUInt8 buf pos := by
            unfold bufReadUInt8
            exact getD_append_lt (by omega) 0
          have h2 : pos + 1 ≤ (buf ++ ext).length := by
            simp [List.length_append]
            omega
          cases hr : reg (bufReadUInt8 buf pos) with
          | none =>
              have hr2 : reg (bufReadUInt8 (buf ++ ext) pos) = none := by
                rw [htag]
                exact hr
              rw [parseTokens_unknown reg (buf ++ ext) pos meta h2 hr2]
              rw [parseTokens_unknown reg buf pos meta h hr]
              rw [ih (pos + 1) meta (by omega)]
              simp [seqResult, htag]
          | some dec =>
              have hr2 : reg (bufReadUInt8 (buf ++ ext) pos) = some dec := by
                rw [htag]
                exact hr
              cases hq : runProg (dec meta) buf (pos + 1) with
              | completed t q =>
                  have hq2 := runProg_extend_completed _ buf ext (pos + 1) t q hq
                  rw [parseTokens_completed_step reg (buf ++ ext) pos meta dec t q h2 hr2 hq2]
                  rw [parseTokens_completed_step reg buf pos meta dec t q h hr hq]
                  have hq1 := runProg_completed_le _ buf (pos + 1) t q hq
                  rw [ih q (updateColMetadata meta t) (by omega)]
                  simp [seqResult]
              | suspended p sp =>
                  have hq' := runProg_extend_suspended _ buf ext (pos + 1) p sp hq
                  rw [parseTokens_suspended_step reg buf pos meta dec p sp h hr hq]
                  cases hq2 : runProg p (buf ++ ext) sp with
                  | completed t2 q2 =>
                      rw [parseTokens_completed_step reg (buf ++ ext) pos meta dec t2 q2 h2 hr2
                        (hq'.trans hq2)]
                      simp only [seqResult, continueRun]
                      rw [resumeLoop_completed reg p (buf ++ ext) sp meta t2 q2 hq2]
                      simp
                  | suspended p2 sp2 =>
                      rw [parseTokens_suspended_step reg (buf ++ ext) pos meta dec p2 sp2 h2 hr2
                        (hq'.trans hq2)]
                      simp only [seqResult, continueRun]
                      rw [resumeLoop_suspended reg p (buf ++ ext) sp meta p2 sp2 hq2]
                      simp
  intro pos meta
  exact H (buf.length - pos) pos meta (Nat.le_refl _)


theorem parseTokens_shift (reg : Registry) (buf : List Nat) (d : Nat) :
    ∀ (pos : Nat) (meta : ColMetadata), d ≤ pos → pos ≤ buf.length →
      parseTokens reg (buf.drop d) (pos - d) meta =
        shiftLoop d (parseTokens reg buf pos meta) := by
  have H : ∀ (n pos : Nat) (meta : ColMetadata), buf.length - pos ≤ n →
      d ≤ pos → pos ≤ buf.length →
      parseTokens reg (buf.drop d) (pos - d) meta =
        shiftLoop d (parseTokens reg buf pos meta) := by
    intro n
    induction n with
    | zero =>
        intro pos meta hn hd hb
        rw [parseTokens_stop reg buf pos meta (by omega)]
        rw [parseTokens_stop reg (buf.drop d) (pos - d) meta
          (by simp [List.length_drop]; omega)]
        simp [shiftLoop]
    | succ n ih =>
        intro pos meta hn hd hb
        by_cases h : pos + 1 ≤ buf.length
        case neg =>
            rw [parseTokens_stop reg buf pos meta h]
            rw [parseTokens_stop reg (buf.drop d) (pos - d) meta
              (by simp [List.length_drop]; omega)]
            simp [shiftLoop]
        case pos =>
          have htag : bufReadUInt8 (buf.drop d) (pos - d) = bufReadUInt8 buf pos := by
            unfold bufReadUInt8
            rw [getD_drop_add]
            congr 1
            omega
          have h2 : pos - d + 1 ≤ (buf.drop d).length := by
            simp [List.length_drop]
            omega
          have hsub : pos - d + 1 = pos + 1 - d := by omega
          cases hr : reg (bufReadUInt8 buf pos) with
          | none =>
              have hr2 : reg (bufReadUInt8 (buf.drop d) (pos - d)) = none := by
                rw [htag]
                exact hr
              rw [parseTokens_unknown reg (buf.drop d) (pos - d) meta h2 hr2]
              rw [parseTokens_unknown reg buf pos meta h hr]
              rw [hsub, ih (pos + 1) meta (by omega) (by omega) (by omega)]
              simp [shiftLoop, htag]
          | some dec =>
              have hr2 : reg (bufReadUInt8 (buf.drop d) (pos - d)) = some dec := by
                rw [htag]
                exact hr
              cases hq : runProg (dec meta) buf (pos + 1) with
              | completed t q =>
                  have hq2 := runProg_shift_completed _ buf (pos + 1) d t q
                    (by omega) (by omega) hq
                  rw [← hsub] at hq2
                  rw [parseTokens_completed_step reg (buf.drop d) (pos - d) meta dec t (q - d)
                    h2 hr2 hq2]
                  rw [parseTokens_completed_step reg buf pos meta dec t q h hr hq]
                  have hq1 := runProg_completed_le _ buf (pos + 1) t q hq
                  have hqb := runProg_completed_bound _ buf (pos + 1) t q h hq
                  rw [ih q (updateColMetadata meta t) (by omega) (by omega) hqb]
                  simp [shiftLoop]
              | suspended p sp =>
                  have hq2 := runProg_shift_suspended _ buf (pos + 1) d p sp
                    (by omega) (by omega) hq
                  rw [← hsub] at hq2
                  rw [parseTokens_suspended_step reg (buf.drop d) (pos - d) meta dec p (sp - d)
                    h2 hr2 hq2]
                  rw [parseTokens_suspended_step reg buf pos meta dec p sp h hr hq]
                  simp [shiftLoop]
  intro pos meta hd hb
  exact H (buf.length - pos) pos meta (Nat.le_refl _) hd hb

theorem resumeLoop_extend (reg : Registry) (p : Prog Token) (buf ext : List Nat)
    (pos : Nat) (meta : ColMetadata) :
    resumeLoop reg p (buf ++ ext) pos meta =
      seqResult (resumeLoop reg p buf pos meta)
        (continueRun reg (resumeLoop reg p buf pos meta).outcome
          (resumeLoop reg p buf pos meta).pos
          (resumeLoop reg p buf pos meta).meta (buf ++ ext)) := by
  cases hq : runProg p buf pos with
  | completed t q =>
      rw [resumeLoop_completed reg p buf pos meta t q hq]
      rw [resumeLoop_completed reg p (buf ++ ext) pos meta t q
        (runProg_extend_completed _ buf ext pos t q hq)]
      rw [parseTokens_extend reg buf ext q (updateColMetadata meta t)]
      simp [seqResult]
  | suspended p1 sp =>
      rw [resumeLoop_suspended reg p buf pos meta p1 sp hq]
      have key : resumeLoop reg p (buf ++ ext) pos meta
          = resumeLoop reg p1 (buf ++ ext) sp meta := by
        unfold resumeLoop
        rw [runProg_extend_suspended _ buf ext pos p1 sp hq]
      rw [key]
      simp [seqResult, continueRun]

theorem resumeLoop_shift (reg : Registry) (p : Prog Token) (buf : List Nat)
    (d pos : Nat) (meta : ColMetadata) (hd : d ≤ pos) (hb : pos ≤ buf.length) :
    resumeLoop reg p (buf.drop d) (pos - d) meta =
      shiftLoop d (resumeLoop reg p buf pos meta) := by
  cases hq : runProg p buf pos with
  | completed t q =>
      rw [resumeLoop_completed reg p buf pos meta t q hq]
      rw [resumeLoop_completed reg p (buf.drop d) (pos - d) meta t (q - d)
        (runProg_shift_completed _ buf pos d t q hd hb hq)]
      rw [parseTokens_shift reg buf d q (updateColMetadata meta t)
        (by have := runProg_completed_le _ buf pos t q hq; omega)
        (runProg_completed_bound _ buf pos t q hb hq)]
      simp [shiftLoop]
  | suspended p1 sp =>
      rw [resumeLoop_suspended reg p buf pos meta p1 sp hq]
      rw [resumeLoop_suspended reg p (buf.drop d) (pos - d) meta p1 (sp - d)
        (runProg_shift_suspended _ buf pos d p1 sp hd hb hq)]
      simp [shiftLoop]

end Tedious

namespace Tedious

/-- Run performed by `_transform` once the window is updated: resume the
pending continuation if there is one, else enter the dispatch loop; either
way from cursor 0 of the fresh window. -/
def startRun (reg : Registry) (opt : Option (Prog Token)) (buf : List Nat)
    (meta : ColMetadata) : LoopResult :=
  match opt with
  | some p => resumeLoop reg p buf 0 meta
  | none => parseTokens reg buf 0 meta

theorem appendChunk_buffer (s : PState) (input : List Nat) :
    (appendChunk s input).buffer = s.buffer.drop s.position ++ input := by
  unfold appendChunk
  by_cases h : s.position = s.buffer.length
  · simp [h, List.drop_length]
  · simp [h]

theorem pendingOf_applyResult (s : PState) (w : List Nat) (r : LoopResult) :
    pendingOf (applyResult s w r) =
      (match r.outcome with | .finished => none | .suspendedOn p => some p) := by
  cases ho : r.outcome with
  | finished => simp [pendingOf, applyResult, ho]
  | suspendedOn p => simp [pendingOf, applyResult, ho]

theorem feed_bytes_eq (reg : Registry) (s : PState) (input : List Nat) :
    feed reg s (.bytes input) =
      (applyResult s (s.buffer.drop s.position ++ input)
        (startRun reg (pendingOf s) (s.buffer.drop s.position ++ input) s.colMetadata),
       (startRun reg (pendingOf s) (s.buffer.drop s.position ++ input) s.colMetadata).events) := by
  cases hp : pendingOf s with
  | some p => simp [feed, hp, startRun, appendChunk_buffer]
  | none => simp [feed, hp, startRun, appendChunk_buffer]

theorem startRun_pos_bound (reg : Registry) (opt : Option (Prog Token))
    (buf : List Nat) (meta : ColMetadata) :
    (startRun reg opt buf meta).pos ≤ buf.length := by
  cases opt with
  | some p => simpa [startRun] using resumeLoop_pos_bound reg p buf 0 meta (Nat.zero_le _)
  | none => simpa [startRun] using parseTokens_pos_bound reg buf 0 meta (Nat.zero_le _)

theorem startRun_extend (reg : Registry) (opt : Option (Prog Token))
    (buf ext : List Nat) (meta : ColMetadata) :
    startRun reg opt (buf ++ ext) meta =
      seqResult (startRun reg opt buf meta)
        (continueRun reg (startRun reg opt buf meta).outcome
          (startRun reg opt buf meta).pos
          (startRun reg opt buf meta).meta (buf ++ ext)) := by
  cases opt with
  | some p => simpa [startRun] using resumeLoop_extend reg p buf ext 0 meta
  | none => simpa [startRun] using parseTokens_extend reg buf ext 0 meta

theorem continueRun_startRun (reg : Registry) (out : DispatchOutcome) (pos : Nat)
    (meta : ColMetadata) (w c2 : List Nat) (hb : pos ≤ w.length) :
    (continueRun reg out pos meta (w ++ c2)).events =
      (startRun reg (match out with | .finished => none | .suspendedOn p => some p)
        (w.drop pos ++ c2) meta).events := by
  cases out with
  | finished =>
      have h1 := parseTokens_shift reg (w ++ c2) pos pos meta (Nat.le_refl _)
        (by simp [List.length_append]; omega)
      rw [List.drop_append_of_le_length hb, Nat.sub_self] at h1
      simp only [continueRun, startRun]
      rw [h1]
      simp [shiftLoop]
  | suspendedOn p =>
      have h1 := resumeLoop_shift reg p (w ++ c2) pos pos meta (Nat.le_refl _)
        (by simp [List.length_append]; omega)
      rw [List.drop_append_of_le_length hb, Nat.sub_self] at h1
      simp only [continueRun, startRun]
      rw [h1]
      simp [shiftLoop]

theorem applyResult_buffer (s : PState) (w : List Nat) (r : LoopResult) :
    (applyResult s w r).buffer = w := rfl

theorem applyResult_position (s : PState) (w : List Nat) (r : LoopResult) :
    (applyResult s w r).position = r.pos := rfl

theorem applyResult_colMetadata (s : PState) (w : List Nat) (r : LoopResult) :
    (applyResult s w r).colMetadata = r.meta := rfl

theorem feed_split (reg : Registry) (s : PState) (c1 c2 : List Nat) :
    (feed reg s (.bytes (c1 ++ c2))).2 =
      (feed reg s (.bytes c1)).2 ++
        (feed reg (feed reg s (.bytes c1)).1 (.bytes c2)).2 := by
  simp only [feed_bytes_eq]
  simp only [pendingOf_applyResult, applyResult_buffer, applyResult_position,
    applyResult_colMetadata]
  rw [show s.buffer.drop s.position ++ (c1 ++ c2)
      = (s.buffer.drop s.position ++ c1) ++ c2 from (List.append_assoc _ _ _).symm]
  rw [startRun_extend reg (pendingOf s) (s.buffer.drop s.position ++ c1) c2 s.colMetadata]
  simp only [seqResult]
  congr 1
  exact continueRun_startRun reg _ _ _ _ _ (startRun_pos_bound reg _ _ _)

theorem feedMany_join (reg : Registry) (c : List Nat) (cs : List (List Nat)) :
    ∀ (s : PState),
      (feedMany reg s ((c :: cs).map Chunk.bytes)).2 =
        (feed reg s (.bytes ((c :: cs).flatten))).2 := by
  induction cs generalizing c with
  | nil =>
      intro s
      simp [feedMany, List.flatten]
  | cons c2 cs2 ih =>
      intro s
      have hjoin : (c :: c2 :: cs2).flatten = c ++ (c2 :: cs2).flatten := rfl
      rw [hjoin, feed_split reg s c ((c2 :: cs2).flatten)]
      rw [← ih c2 (feed reg s (.bytes c)).1]
      simp [feedMany]

end Tedious

namespace Tedious

theorem encodeLE_length (width : Nat) : ∀ (v : Nat), (encodeLE width v).length = width := by
  induction width with
  | zero => intro v; rfl
  | succ w ih => intro v; simp [encodeLE, ih]

theorem encodeLE_getD (width : Nat) :
    ∀ (v i : Nat), i < width → (encodeLE width v).getD i 0 = v / 256 ^ i % 256 := by
  induction width with
  | zero => intro v i h; omega
  | succ w ih =>
      intro v i h
      cases i with
      | zero => simp [encodeLE]
      | succ j =>
          simp only [encodeLE, List.getD_cons_succ]
          rw [ih (v / 256) j (by omega), Nat.div_div_eq_div_mul, ← pow_succ']

theorem bufReadUInt8_encodeLE (width v i : Nat) (h : i < width) :
    bufReadUInt8 (encodeLE width v) i = v / 256 ^ i % 256 :=
  encodeLE_getD width v i h

theorem bufReadUInt16LE_encodeLE (width v i : Nat) (h : i + 2 ≤ width) :
    bufReadUInt16LE (encodeLE width v) i = v / 256 ^ i % 65536 := by
  unfold bufReadUInt16LE
  rw [bufReadUInt8_encodeLE width v i (by omega),
    bufReadUInt8_encodeLE width v (i + 1) (by omega)]
  have h1 : v / 256 ^ (i + 1) = v / 256 ^ i / 256 := by
    rw [Nat.div_div_eq_div_mul, ← pow_succ]
  rw [h1]
  omega

theorem bufReadUInt32LE_encodeLE (width v i : Nat) (h : i + 4 ≤ width) :
    bufReadUInt32LE (encodeLE width v) i = v / 256 ^ i % 4294967296 := by
  unfold bufReadUInt32LE
  rw [bufReadUInt8_encodeLE width v i (by omega),
    bufReadUInt8_encodeLE width v (i + 1) (by omega),
    bufReadUInt8_encodeLE width v (i + 2) (by omega),
    bufReadUInt8_encodeLE width v (i + 3) (by omega)]
  have h1 : v / 256 ^ (i + 1) = v / 256 ^ i / 256 := by
    rw [Nat.div_div_eq_div_mul, ← pow_succ]
  have h2 : v / 256 ^ (i + 2) = v / 256 ^ i / 65536 := by
    rw [Nat.div_div_eq_div_mul]
    have hp : (256 : Nat) ^ (i + 2) = 256 ^ i * 65536 := by
      rw [pow_add]
      norm_num
    rw [hp]
  have h3 : v / 256 ^ (i + 3) = v / 256 ^ i / 16777216 := by
    rw [Nat.div_div_eq_div_mul]
    have hp : (256 : Nat) ^ (i + 3) = 256 ^ i * 16777216 := by
      rw [pow_add]
      norm_num
    rw [hp]
  rw [h1, h2, h3]
  omega

theorem lor_shift16 (a b : Nat) (ha : a < 65536) :
    Nat.lor a (Nat.shiftLeft b 16) = a + 65536 * b := by
  have ha2 : a < 2 ^ 16 := by omega
  have h := Nat.mul_add_lt_is_or ha2 b
  have hc : Nat.lor a (Nat.shiftLeft b 16) = Nat.lor (Nat.shiftLeft b 16) a :=
    Nat.lor_comm _ _
  have hs : Nat.shiftLeft b 16 = b * 2 ^ 16 := Nat.shiftLeft_eq b 16
  rw [hc, hs, mul_comm]
  have hr : Nat.lor (2 ^ 16 * b) a = 2 ^ 16 * b + a := h.symm
  rw [hr]
  omega

theorem runProg_readBytes_exact {α : Type} (n : Nat) (k : List Nat → Prog α)
    (buf : List Nat) (pos : Nat) (h : pos + n ≤ buf.length) :
    runProg (Prog.readBytes n k) buf pos = runProg (k ((buf.drop pos).take n)) buf (pos + n) := by
  rw [runProg, if_pos h]

theorem encodeLE_slice (w v : Nat) : ((encodeLE w v).drop 0).take w = encodeLE w v := by
  rw [List.drop_zero]
  exact List.take_of_length_le (by rw [encodeLE_length])

end Tedious

namespace Tedious

theorem completed_congr {α : Type} (x y : α) (p q : Nat) (hx : x = y) (hpq : p = q) :
    (RunResult.completed x p : RunResult α) = .completed y q := by
  rw [hx, hpq]

theorem roundtrip24 (v : Nat) (h : v < 16777216) :
    runProg (readUInt24LE (Prog.done : Nat → Prog Nat)) (encodeLE 3 v) 0 = .completed v 3 := by
  unfold readUInt24LE
  rw [runProg_readBytes_exact 3 _ _ 0 (by simp [encodeLE_length])]
  rw [encodeLE_slice]
  rw [runProg]
  rw [bufReadUInt16LE_encodeLE 3 v 0 (by omega), bufReadUInt8_encodeLE 3 v 2 (by omega)]
  rw [lor_shift16 _ _ (by omega)]
  apply completed_congr
  · norm_num
    omega
  · norm_num

theorem roundtrip40 (v : Nat) (h : v < 1099511627776) :
    runProg (readUInt40LE (Prog.done : Nat → Prog Nat)) (encodeLE 5 v) 0 = .completed v 5 := by
  unfold readUInt40LE
  rw [runProg_readBytes_exact 5 _ _ 0 (by simp [encodeLE_length])]
  rw [encodeLE_slice]
  rw [runProg]
  rw [bufReadUInt8_encodeLE 5 v 4 (by omega), bufReadUInt32LE_encodeLE 5 v 0 (by omega)]
  apply completed_congr
  · norm_num
    omega
  · norm_num

theorem roundtrip64 (v : Nat) (h : v < 18446744073709551616) :
    runProg (readUNumeric64LE (Prog.done : Nat → Prog Nat)) (encodeLE 8 v) 0
      = .completed v 8 := by
  unfold readUNumeric64LE
  rw [runProg_readBytes_exact 8 _ _ 0 (by simp [encodeLE_length])]
  rw [encodeLE_slice]
  rw [runProg]
  rw [bufReadUInt32LE_encodeLE 8 v 4 (by omega), bufReadUInt32LE_encodeLE 8 v 0 (by omega)]
  apply completed_congr
  · norm_num
    omega
  · norm_num

theorem roundtrip96 (v : Nat) (h : v < 79228162514264337593543950336) :
    runProg (readUNumeric96LE (Prog.done : Nat → Prog Nat)) (encodeLE 12 v) 0
      = .completed v 12 := by
  unfold readUNumeric96LE
  rw [runProg_readBytes_exact 12 _ _ 0 (by simp [encodeLE_length])]
  rw [encodeLE_slice]
  rw [runProg]
  rw [bufReadUInt32LE_encodeLE 12 v 0 (by omega), bufReadUInt32LE_encodeLE 12 v 4 (by omega),
    bufReadUInt32LE_encodeLE 12 v 8 (by omega)]
  apply completed_congr
  · norm_num
    omega
  · norm_num

theorem roundtrip128 (v : Nat) (h : v < 340282366920938463463374607431768211456) :
    runProg (readUNumeric128LE (Prog.done : Nat → Prog Nat)) (encodeLE 16 v) 0
      = .completed v 16 := by
  unfold readUNumeric128LE
  rw [runProg_readBytes_exact 16 _ _ 0 (by simp [encodeLE_length])]
  rw [encodeLE_slice]
  rw [runProg]
  rw [bufReadUInt32LE_encodeLE 16 v 0 (by omega), bufReadUInt32LE_encodeLE 16 v 4 (by omega),
    bufReadUInt32LE_encodeLE 16 v 8 (by omega), bufReadUInt32LE_encodeLE 16 v 12 (by omega)]
  apply completed_congr
  · norm_num
    omega
  · norm_num

end Tedious

namespace Tedious

theorem ucs2Encode_length (us : List Nat) : (ucs2Encode us).length = 2 * us.length := by
  induction us with
  | nil => rfl
  | cons u us ih => simp [ucs2Encode, ih]; omega

theorem ucs2Chars_encode (us : List Nat) (h : ∀ u ∈ us, u < 65536) :
    ucs2Chars (ucs2Encode us) = us.map Char.ofNat := by
  induction us with
  | nil => rfl
  | cons u us ih =>
      have hu : u < 65536 := h u (by simp)
      have he : u % 256 + 256 * (u / 256) = u := by omega
      simp only [ucs2Encode, ucs2Chars, List.map, he]
      rw [ih (fun x hx => h x (by simp [hx]))]

theorem bufReadUInt8_slice (buf : List Nat) (pos n i : Nat) (hi : i < n)
    (hn : pos + n ≤ buf.length) :
    bufReadUInt8 ((buf.drop pos).take n) i = bufReadUInt8 buf (pos + i) := by
  unfold bufReadUInt8
  rw [List.getD_eq_getElem?_getD, List.getD_eq_getElem?_getD]
  rw [List.getElem?_take_of_lt hi, List.getElem?_drop]

theorem bufReadUInt32LE_slice (buf : List Nat) (pos n i : Nat) (hi : i + 4 ≤ n)
    (hn : pos + n ≤ buf.length) :
    bufReadUInt32LE ((buf.drop pos).take n) i = bufReadUInt32LE buf (pos + i) := by
  unfold bufReadUInt32LE
  rw [bufReadUInt8_slice buf pos n i (by omega) hn,
    bufReadUInt8_slice buf pos n (i + 1) (by omega) hn,
    bufReadUInt8_slice buf pos n (i + 2) (by omega) hn,
    bufReadUInt8_slice buf pos n (i + 3) (by omega) hn]
  simp [Nat.add_assoc]

theorem bvarchar_run {α : Type} (us : List Nat) (k : String → Prog α)
    (hlen : us.length ≤ 255) (hu : ∀ u ∈ us, u < 65536) :
    runProg (readBVarChar k) (us.length :: ucs2Encode us) 0
      = runProg (k (String.mk (us.map Char.ofNat)))
          (us.length :: ucs2Encode us) (1 + 2 * us.length) := by
  unfold readBVarChar readUInt8 readBuffer
  rw [runProg_readBytes_exact 1 _ _ 0 (by simp)]
  have hs1 : (((us.length :: ucs2Encode us).drop 0).take 1) = [us.length] := by simp
  rw [hs1]
  have hb1 : bufReadUInt8 [us.length] 0 = us.length := rfl
  rw [hb1]
  rw [runProg_readBytes_exact (us.length * 2) _ _ (0 + 1)
    (by simp [ucs2Encode_length]; omega)]
  have hs2 : ((us.length :: ucs2Encode us).drop (0 + 1)).take (us.length * 2)
      = ucs2Encode us := by
    simp only [List.drop_succ_cons, List.drop_zero]
    exact List.take_of_length_le (by rw [ucs2Encode_length]; omega)
  rw [hs2]
  have hstr : ucs2ToString (ucs2Encode us) = String.mk (us.map Char.ofNat) := by
    unfold ucs2ToString
    rw [ucs2Chars_encode us hu]
  rw [hstr]
  have hpos : 0 + 1 + us.length * 2 = 1 + 2 * us.length := by omega
  rw [hpos]

theorem usvarchar_run {α : Type} (us : List Nat) (k : String → Prog α)
    (hlen : us.length < 65536) (hu : ∀ u ∈ us, u < 65536) :
    runProg (readUsVarChar k)
        (us.length % 256 :: us.length / 256 :: ucs2Encode us) 0
      = runProg (k (String.mk (us.map Char.ofNat)))
          (us.length % 256 :: us.length / 256 :: ucs2Encode us) (2 + 2 * us.length) := by
  unfold readUsVarChar readUInt16LE readBuffer
  rw [runProg_readBytes_exact 2 _ _ 0 (by simp)]
  have hs1 : (((us.length % 256 :: us.length / 256 :: ucs2Encode us).drop 0).take 2)
      = [us.length % 256, us.length / 256] := by simp
  rw [hs1]
  have hb1 : bufReadUInt16LE [us.length % 256, us.length / 256] 0 = us.length := by
    unfold bufReadUInt16LE bufReadUInt8
    simp
    omega
  rw [hb1]
  rw [runProg_readBytes_exact (us.length * 2) _ _ (0 + 2)
    (by simp [ucs2Encode_length]; omega)]
  have hs2 : ((us.length % 256 :: us.length / 256 :: ucs2Encode us).drop (0 + 2)).take
      (us.length * 2) = ucs2Encode us := by
    simp only [List.drop_succ_cons, List.drop_zero]
    exact List.take_of_length_le (by rw [ucs2Encode_length]; omega)
  rw [hs2]
  have hstr : ucs2ToString (ucs2Encode us) = String.mk (us.map Char.ofNat) := by
    unfold ucs2ToString
    rw [ucs2Chars_encode us hu]
  rw [hstr]
  have hpos : 0 + 2 + us.length * 2 = 2 + 2 * us.length := by omega
  rw [hpos]

end Tedious

namespace Tedious

/-- C1: for every token byte sequence and every partition of it into one or
more raw-byte chunks (split anywhere, including mid-field: the theorem
quantifies over all chunk lists, valid or not, and over all decoder
registries), feeding the chunks to a fresh parser in order emits exactly the
same token sequence as feeding the whole sequence as one chunk.  The claim's
restriction to valid sequences is subsumed: equality holds for the full event
sequence of every byte sequence. -/
theorem chunked_parse_equivalence (reg : Registry) (meta : ColMetadata)
    (c : List Nat) (cs : List (List Nat)) :
    eventTokens (feedMany reg (initState meta) ((c :: cs).map Chunk.bytes)).2
      = eventTokens (feed reg (initState meta) (Chunk.bytes ((c :: cs).flatten))).2 := by
  rw [feedMany_join]

/-- C2 counterexample: the claim says an unknown tag halts all further
dispatch of the instance - no later byte read as a tag, no further token.
Concretely, on the two-byte window `[99, 7]` with tag 99 unregistered and
tag 7 registered, the parser emits the unknown-tag error for 99 and then
still reads byte 7 as a tag and emits its token. -/
theorem unknown_tag_counterexample :
    (feed regPlain7 (initState []) (Chunk.bytes [99, 7])).2
      = [Event.error 99, Event.token (Token.plain 7 [])] := by
  simp only [feed, pendingOf, initState, appendChunk]
  norm_num
  rw [parseTokens_unknown regPlain7 [99, 7] 0 [] (by simp) (by rfl)]
  rw [parseTokens_completed_step regPlain7 [99, 7] 1 []
    (fun _ => .done (.plain 7 [])) (.plain 7 []) 2 (by simp) (by rfl) (by rfl)]
  rw [parseTokens_stop regPlain7 [99, 7] 2 (updateColMetadata [] (.plain 7 []))
    (by simp)]
  rfl

/-- C2 (amended): for every tag byte with no registered decoder, the dispatch
loop signals the fatal unknown-tag error out-of-band (an error event, never a
completion-callback token) and then continues the loop at the next byte - the
unknown tag is consumed, not silently skipped, but dispatch is NOT halted:
subsequent bytes are read as tags. -/
theorem unknown_tag_emits_and_continues (reg : Registry) (buf : List Nat) (pos : Nat)
    (meta : ColMetadata) (h : pos + 1 ≤ buf.length)
    (hr : reg (bufReadUInt8 buf pos) = none) :
    parseTokens reg buf pos meta =
      { parseTokens reg buf (pos + 1) meta with
        events := .error (bufReadUInt8 buf pos)
          :: (parseTokens reg buf (pos + 1) meta).events } :=
  parseTokens_unknown reg buf pos meta h hr

/-- Witness for the amended C2 theorem at the concrete window `[5]` with an
empty registry. -/
theorem unknown_tag_emits_and_continues_witness :
    parseTokens regEmpty [5] 0 []
      = { events := [Event.error 5], pos := 1, meta := [], outcome := .finished } := by
  rw [unknown_tag_emits_and_continues regEmpty [5] 0 [] (by simp) (by rfl)]
  rw [parseTokens_stop regEmpty [5] 1 [] (by simp)]
  rfl

/-- C3: evaluation of the source's `readInt64LE` at the failing input: the
8-byte little-endian encoding of 1 (`01 00 00 00 00 00 00 00`) is decoded as
-1, because the ternary sign factor (taken from bit 7 of the byte at offset
4, the LOW byte of the high word) multiplies the unsigned low word; the
spec's own example `00 00 00 00 FF FF FF FF` does decode to -4294967296 as
stated (its low word is 0, so the sign slip is invisible there). -/
theorem readInt64LE_evaluation :
    runProg (readInt64LE (Prog.done : Int → Prog Int)) [1, 0, 0, 0, 0, 0, 0, 0] 0
        = .completed (-1) 8 ∧
    runProg (readInt64LE (Prog.done : Int → Prog Int)) [0, 0, 0, 0, 255, 255, 255, 255] 0
        = .completed (-4294967296) 8 := by
  constructor
  · rfl
  · rfl

/-- C4: the `awaitData(need, onReady)` contract.  With at least `need` unread
bytes, the callback runs synchronously (the read proceeds in place).
Otherwise the read suspends: the pending continuation is the same retried
check, the cursor does not move, nothing is consumed; and resuming that
stored continuation while the window is still short re-suspends with the
same pending read, the same cursor, and emits no event. -/
theorem awaitData_contract {α : Type} (need : Nat) (k : List Nat → Prog α)
    (buf : List Nat) (pos : Nat) (hb : pos ≤ buf.length) :
    (need ≤ buf.length - pos →
      runProg (Prog.readBytes need k) buf pos
        = runProg (k ((buf.drop pos).take need)) buf (pos + need)) ∧
    (buf.length - pos < need →
      runProg (Prog.readBytes need k) buf pos
        = .suspended (Prog.readBytes need k) pos) ∧
    (buf.length - pos < need →
      ∀ (reg : Registry) (meta : ColMetadata) (k2 : List Nat → Prog Token),
        resumeLoop reg (Prog.readBytes need k2) buf pos meta
          = { events := [], pos := pos, meta := meta,
              outcome := .suspendedOn (Prog.readBytes need k2) }) := by
  refine ⟨?_, ?_, ?_⟩
  · intro h
    exact runProg_readBytes_exact need k buf pos (by omega)
  · intro h
    rw [runProg, if_neg (by omega)]
  · intro h reg meta k2
    apply resumeLoop_suspended
    rw [runProg, if_neg (by omega)]

/-- Witness for C4 on the two-byte window `[1, 2]` with a pending 4-byte
read: the read suspends at cursor 0 and resuming it re-suspends identically
with no event. -/
theorem awaitData_contract_witness :
    runProg (Prog.readBytes 4 (Prog.done : List Nat → Prog (List Nat))) [1, 2] 0
        = .suspended (Prog.readBytes 4 (Prog.done : List Nat → Prog (List Nat))) 0 ∧
    resumeLoop regEmpty (Prog.readBytes 4 fun bs => Prog.done (Token.plain 0 [])) [1, 2] 0 []
        = { events := [], pos := 0, meta := [],
            outcome := .suspendedOn (Prog.readBytes 4 fun bs => Prog.done (Token.plain 0 [])) } := by
  have h := awaitData_contract 4 (Prog.done : List Nat → Prog (List Nat)) [1, 2] 0 (by simp)
  exact ⟨h.2.1 (by simp), h.2.2 (by simp) regEmpty [] (fun bs => Prog.done (Token.plain 0 []))⟩

/-- C5: the accumulator append of `_transform`.  The cursor resets to 0; when
the cursor had consumed the whole window the new window is exactly the
arriving chunk (no byte of the old window is retained); otherwise it is the
unconsumed suffix `window[cursor:]` concatenated with the chunk. -/
theorem accumulator_append_contract (s : PState) (input : List Nat) :
    (appendChunk s input).position = 0 ∧
    (s.position = s.buffer.length → (appendChunk s input).buffer = input) ∧
    (s.position ≠ s.buffer.length →
      (appendChunk s input).buffer = s.buffer.drop s.position ++ input) := by
  refine ⟨rfl, ?_, ?_⟩
  · intro h
    simp [appendChunk, h]
  · intro h
    simp [appendChunk, h]

/-- Witness for C5: fully-consumed window `[5, 6]` (cursor 2) is replaced
outright by `[7]`; partially-consumed window (cursor 1) keeps its suffix. -/
theorem accumulator_append_contract_witness :
    (appendChunk ⟨[5, 6], 2, [], false, none⟩ [7]).position = 0 ∧
    (appendChunk ⟨[5, 6], 2, [], false, none⟩ [7]).buffer = [7] ∧
    (appendChunk ⟨[5, 6], 1, [], false, none⟩ [7]).buffer = [6, 7] := by
  refine ⟨(accumulator_append_contract ⟨[5, 6], 2, [], false, none⟩ [7]).1,
    (accumulator_append_contract ⟨[5, 6], 2, [], false, none⟩ [7]).2.1 rfl, ?_⟩
  have h := (accumulator_append_contract ⟨[5, 6], 1, [], false, none⟩ [7]).2.2 (by simp)
  simpa using h

/-- C6: round-trip of the extended-width unsigned readers.  For every value
at most 2^53 (where IEEE-double arithmetic is exact, so the `Nat` model is
faithful) that fits the width, encoding it as 3 / 5 / 8 / 12 / 16
little-endian bytes and running `readUInt24LE` / `readUInt40LE` /
`readUNumeric64LE` / `readUNumeric96LE` / `readUNumeric128LE` completes with
the original value, consuming exactly the width. -/
theorem extended_width_roundtrip (v : Nat) (hv : v ≤ 9007199254740992) :
    (v < 16777216 →
      runProg (readUInt24LE (Prog.done : Nat → Prog Nat)) (encodeLE 3 v) 0
        = .completed v 3) ∧
    (v < 1099511627776 →
      runProg (readUInt40LE (Prog.done : Nat → Prog Nat)) (encodeLE 5 v) 0
        = .completed v 5) ∧
    runProg (readUNumeric64LE (Prog.done : Nat → Prog Nat)) (encodeLE 8 v) 0
        = .completed v 8 ∧
    runProg (readUNumeric96LE (Prog.done : Nat → Prog Nat)) (encodeLE 12 v) 0
        = .completed v 12 ∧
    runProg (readUNumeric128LE (Prog.done : Nat → Prog Nat)) (encodeLE 16 v) 0
        = .completed v 16 :=
  ⟨fun h => roundtrip24 v h, fun h => roundtrip40 v h, roundtrip64 v (by omega),
    roundtrip96 v (by omega), roundtrip128 v (by omega)⟩

/-- Witness for C6 at the value 300. -/
theorem extended_width_roundtrip_witness :
    runProg (readUInt24LE (Prog.done : Nat → Prog Nat)) (encodeLE 3 300) 0
        = .completed 300 3 ∧
    runProg (readUInt40LE (Prog.done : Nat → Prog Nat)) (encodeLE 5 300) 0
        = .completed 300 5 ∧
    runProg (readUNumeric64LE (Prog.done : Nat → Prog Nat)) (encodeLE 8 300) 0
        = .completed 300 8 ∧
    runProg (readUNumeric96LE (Prog.done : Nat → Prog Nat)) (encodeLE 12 300) 0
        = .completed 300 12 ∧
    runProg (readUNumeric128LE (Prog.done : Nat → Prog Nat)) (encodeLE 16 300) 0
        = .completed 300 16 := by
  have h := extended_width_roundtrip 300 (by norm_num)
  exact ⟨h.1 (by norm_num), h.2.1 (by norm_num), h.2.2.1, h.2.2.2.1, h.2.2.2.2⟩

/-- C7: delivering the End-Of-Message marker, in any parser state (suspended
or not), emits exactly one EOM token and returns the state itself: window,
cursor, suspension flag, stored continuation and column-metadata context are
all untouched - the marker bypasses the accumulator and the dispatch loop. -/
theorem eom_marker_frame (reg : Registry) (s : PState) :
    feed reg s Chunk.endOfMessage = (s, [Event.token Token.eom]) := rfl

/-- C8: `readBVarChar` reads a 1-byte character count L and then 2L bytes as
UCS-2 text; `readUsVarChar` does the same with a 2-byte little-endian count.
Concretely `03 41 00 42 00 43 00` decodes to the 3-character string "ABC"
(and likewise with the 2-byte prefix `03 00`), and generally a length-prefixed
UCS-2 encoding of any code-unit list decodes back to its string, consuming
prefix plus 2L bytes. -/
theorem varchar_readers (us : List Nat) :
    runProg (readBVarChar (Prog.done : String → Prog String)) [3, 65, 0, 66, 0, 67, 0] 0
        = .completed (String.mk ['A', 'B', 'C']) 7 ∧
    runProg (readUsVarChar (Prog.done : String → Prog String)) [3, 0, 65, 0, 66, 0, 67, 0] 0
        = .completed (String.mk ['A', 'B', 'C']) 8 ∧
    (∀ {α : Type} (k : String → Prog α), us.length ≤ 255 → (∀ u ∈ us, u < 65536) →
      runProg (readBVarChar k) (us.length :: ucs2Encode us) 0
        = runProg (k (String.mk (us.map Char.ofNat)))
            (us.length :: ucs2Encode us) (1 + 2 * us.length)) ∧
    (∀ {α : Type} (k : String → Prog α), us.length < 65536 → (∀ u ∈ us, u < 65536) →
      runProg (readUsVarChar k)
          (us.length % 256 :: us.length / 256 :: ucs2Encode us) 0
        = runProg (k (String.mk (us.map Char.ofNat)))
            (us.length % 256 :: us.length / 256 :: ucs2Encode us) (2 + 2 * us.length)) := by
  refine ⟨?_, ?_, ?_, ?_⟩
  · rfl
  · rfl
  · intro α k h1 h2
    exact bvarchar_run us k h1 h2
  · intro α k h1 h2
    exact usvarchar_run us k h1 h2

/-- Witness for C8's general round trip at the code-unit list `[72, 73]`. -/
theorem varchar_readers_witness :
    runProg (readBVarChar (Prog.done : String → Prog String))
        ((2 : Nat) :: ucs2Encode [72, 73]) 0
      = runProg (Prog.done (String.mk (List.map Char.ofNat [72, 73])))
          ((2 : Nat) :: ucs2Encode [72, 73]) 5 := by
  have h := (varchar_readers [72, 73]).2.2.1 (Prog.done : String → Prog String)
    (by simp) (by simp)
  simpa using h

/-- C9: whenever a dispatched decoder completes with a COLMETADATA token, the
column-metadata context is replaced wholesale by the token's `columns`
payload before the token is pushed and before the loop dispatches anything
further: the continuation of the loop runs with exactly that payload as its
context. -/
theorem colmetadata_context_replacement (reg : Registry) (buf : List Nat) (pos : Nat)
    (meta : ColMetadata) (dec : ColMetadata → Prog Token) (columns : List Nat) (q : Nat)
    (h : pos + 1 ≤ buf.length) (hr : reg (bufReadUInt8 buf pos) = some dec)
    (hp : runProg (dec meta) buf (pos + 1) = .completed (Token.colMetadata columns) q) :
    parseTokens reg buf pos meta =
      { parseTokens reg buf q columns with
        events := .token (Token.colMetadata columns)
          :: (parseTokens reg buf q columns).events } := by
  have h2 := parseTokens_completed_step reg buf pos meta dec
    (Token.colMetadata columns) q h hr hp
  simpa [updateColMetadata] using h2

/-- Witness for C9: a registry whose tag-129 decoder reads two bytes into a
COLMETADATA token; on `[129, 9, 8]` from the empty context, the context seen
by the remainder of the run is `[9, 8]`. -/
theorem colmetadata_context_replacement_witness :
    parseTokens regColMeta [129, 9, 8] 0 []
      = { events := [Event.token (Token.colMetadata [9, 8])], pos := 3, meta := [9, 8],
          outcome := .finished } := by
  rw [colmetadata_context_replacement regColMeta [129, 9, 8] 0 []
    (fun _ => .readBytes 2 fun bs => .done (.colMetadata bs)) [9, 8] 3
    (by simp) (by rfl) (by rfl)]
  rw [parseTokens_stop regColMeta [129, 9, 8] 3 [9, 8] (by simp)]

/-- C10: `readUInt64LE` and `readUNumeric64LE` are extensionally equal: with
at least 8 unread bytes both invoke the callback with
`2^32 * high_dword + low_dword` and advance the cursor by exactly 8. -/
theorem uint64_unumeric64_agree {α : Type} (k : Nat → Prog α) (buf : List Nat)
    (pos : Nat) (h : pos + 8 ≤ buf.length) :
    runProg (readUInt64LE k) buf pos
        = runProg (k (4294967296 * bufReadUInt32LE buf (pos + 4) + bufReadUInt32LE buf pos))
            buf (pos + 8) ∧
    runProg (readUNumeric64LE k) buf pos
        = runProg (k (4294967296 * bufReadUInt32LE buf (pos + 4) + bufReadUInt32LE buf pos))
            buf (pos + 8) := by
  constructor
  · unfold readUInt64LE
    rw [runProg_readBytes_exact 8 _ _ _ h]
    rw [bufReadUInt32LE_slice buf pos 8 4 (by omega) h,
      bufReadUInt32LE_slice buf pos 8 0 (by omega) h]
    norm_num
  · unfold readUNumeric64LE
    rw [runProg_readBytes_exact 8 _ _ _ h]
    rw [bufReadUInt32LE_slice buf pos 8 4 (by omega) h,
      bufReadUInt32LE_slice buf pos 8 0 (by omega) h]
    norm_num

/-- Witness for C10 on the bytes `01 00 00 00 02 00 00 00`: both readers
complete with 2 * 2^32 + 1 and cursor 8. -/
theorem uint64_unumeric64_agree_witness :
    runProg (readUInt64LE (Prog.done : Nat → Prog Nat)) [1, 0, 0, 0, 2, 0, 0, 0] 0
        = .completed 8589934593 8 ∧
    runProg (readUNumeric64LE (Prog.done : Nat → Prog Nat)) [1, 0, 0, 0, 2, 0, 0, 0] 0
        = .completed 8589934593 8 := by
  have h := uint64_unumeric64_agree (Prog.done : Nat → Prog Nat) [1, 0, 0, 0, 2, 0, 0, 0]
    0 (by simp)
  constructor
  · rw [h.1]
    rfl
  · rw [h.2]
    rfl

end Tedious
